import Mathlib

/-!
Verification of the speaker-diarization / identification core of this
repository against its specification.

The embeddings below translate the Python sources into Lean:
* floats are modelled as exact rationals (`ℚ`); every float literal in the
  sources is a rational, and all arithmetic claimed about is exact except a
  final square root, which is modelled over `ℝ` where a claim needs it;
* NumPy vectors are `List ℚ`;
* the Qdrant point store keyed by speaker id is an association list
  (`SpkStore`), with retrieve = first match and upsert = overwrite-by-id;
* Python dict payloads written by `_upsert_speaker` always carry all fields,
  so the payload is a structure (`SpkPayload`); a `None`-able field is an
  `Option`.  Python truthiness of a payload dict coincides with presence,
  because this module never writes an empty payload.
-/

/-- Dot product of two vectors (`np.dot`, componentwise over the common
length). -/
def dotQ (a b : List ℚ) : ℚ := (List.zipWith (fun x y => x * y) a b).sum

/-- Squared Euclidean norm, `np.linalg.norm(v) ** 2`; `norm v > 0` in the
sources is exactly `0 < normSq v`. -/
def normSq (v : List ℚ) : ℚ := dotQ v v

/-- Componentwise vector sum. -/
def vadd (a b : List ℚ) : List ℚ := List.zipWith (fun x y => x + y) a b

/-- Scalar multiple of a vector. -/
def vscale (c : ℚ) (v : List ℚ) : List ℚ := v.map (fun x => c * x)

/-- `w` is the L2 normalization of `u`: a unit vector that is a positive
scalar multiple of `u`.  This characterizes `u / np.linalg.norm(u)` for
`u ≠ 0` without leaving `ℚ`. -/
def IsNorml (u w : List ℚ) : Prop :=
  (∃ c : ℚ, 0 < c ∧ w = vscale c u) ∧ normSq w = 1

/-- Python `a or b` on strings (empty string is falsy). -/
def orS (a b : String) : String := if a = "" then b else a

/-- The payload `_upsert_speaker` (src/rag-backend/app/routers/speakers.py)
writes for a speaker point. `created_at` is `Option` because the non-merge
branch copies `existing_payload.get("created_at")`, which can be absent. -/
structure SpkPayload where
  spk_id : String
  name : String
  tags : List String
  sources : List String
  sample_count : Nat
  created_at : Option Int
  updated_at : Int
  deriving DecidableEq, Repr

/-- The Qdrant `speakers` collection: one point per speaker id, holding a
vector (of type `V`: the vector is opaque data to `_upsert_speaker`) and a
payload. -/
abbrev SpkStore (V : Type) : Type := List (String × V × SpkPayload)

/-- `cli.retrieve(..., ids=[spk_id])`: the point stored under an id. -/
def storeGet {V : Type} (st : SpkStore V) (spk_id : String) : Option (V × SpkPayload) :=
  (st.find? (fun p => p.1 == spk_id)).map (fun p => p.2)

/-- `cli.upsert`: overwrite the point with this id, or insert it. -/
def storePut {V : Type} (st : SpkStore V) (spk_id : String) (v : V) (pl : SpkPayload) :
    SpkStore V :=
  if st.any (fun p => p.1 == spk_id) then
    st.map (fun p => if p.1 == spk_id then (spk_id, v, pl) else p)
  else
    st ++ [(spk_id, v, pl)]

/-- `_upsert_speaker(spk_id, name, tags, vector, sources, merge)` of
src/rag-backend/app/routers/speakers.py (lines 172-225).  It reads the
existing point's payload (never its vector: `with_vectors=False`), merges
payload fields when `merge` and a prior payload exists, and upserts the
point with the NEW `vector` argument.  Python's `list({*prev, *new})` tag
union is modelled as `eraseDups` of the concatenation (set iteration order
is unspecified and no claim depends on it).  `now = int(time.time())` is a
parameter. -/
def upsertSpeaker {V : Type} (st : SpkStore V) (spk_id name : String) (tags : List String)
    (vector : V) (sources : List String) (merge : Bool) (now : Int) :
    SpkStore V × SpkPayload :=
  let existing := storeGet st spk_id
  let payload : SpkPayload :=
    match merge, existing with
    | true, some (_, prev) =>
        let sources' := prev.sources ++ sources
        { spk_id := spk_id
          name := orS name (orS prev.name spk_id)
          tags := (prev.tags ++ tags).eraseDups
          sources := sources'
          sample_count := prev.sample_count + max 1 sources'.length
          created_at := prev.created_at
          updated_at := now }
    | _, _ =>
        { spk_id := spk_id
          name := orS name spk_id
          tags := tags
          sources := sources
          sample_count := max 1 sources.length
          created_at := match existing with
            | some (_, prev) => prev.created_at
            | none => some now
          updated_at := now }
  (storePut st spk_id vector payload, payload)

theorem storeGet_storePut {V : Type} (st : SpkStore V) (spk_id : String) (v : V)
    (pl : SpkPayload) : storeGet (storePut st spk_id v pl) spk_id = some (v, pl) := by
  unfold storeGet storePut
  by_cases h : st.any (fun p => p.1 == spk_id)
  · simp only [h, if_true]
    induction st with
    | nil => simp at h
    | cons p ps ih =>
        by_cases hp : p.1 == spk_id
        · simp [List.find?, hp]
        · have hps : ps.any (fun q => q.1 == spk_id) := by
            simp [List.any_cons, hp] at h
            simpa using h
          simpa [List.find?, hp] using ih hps
  · simp only [h, if_false]
    have hnone : st.find? (fun p => p.1 == spk_id) = none := by
      rw [List.find?_eq_none]
      intro x hx
      intro hxe
      exact h (List.any_eq_true.mpr ⟨x, hx, hxe⟩)
    simp [List.find?_append, hnone, List.find?]

/-- C1 amended: after any `_upsert_speaker` call (merge or not), the vector
stored under `spk_id` is exactly the `vector` argument of that call: the old
voiceprint does not contribute (only payload metadata is merged; the
existing point is read `with_vectors=False`). -/
theorem upsert_stores_call_vector {V : Type} (st : SpkStore V) (spk_id name : String)
    (tags : List String) (v : V) (sources : List String) (merge : Bool) (now : Int) :
    storeGet (upsertSpeaker st spk_id name tags v sources merge now).1 spk_id =
      some (v, (upsertSpeaker st spk_id name tags v sources merge now).2) := by
  unfold upsertSpeaker
  exact storeGet_storePut ..

/-- The payload of an enrolled speaker `s1` with one contributing sample. -/
def spkC1payload : SpkPayload where
  spk_id := "s1"
  name := "Alice"
  tags := []
  sources := ["a.wav"]
  sample_count := 1
  created_at := some 0
  updated_at := 0

/-- A store holding one enrolled speaker `s1` with unit voiceprint `[1, 0]`
and `sample_count = 1`. -/
def spkC1store : SpkStore (List ℚ) :=
  [("s1", ([1, 0], spkC1payload))]

/-- Re-enrolling `s1` with merge=true and new call voiceprint `[0, 1]`. -/
def spkC1res : SpkStore (List ℚ) × SpkPayload :=
  upsertSpeaker spkC1store "s1" "Alice" [] [0, 1] ["b.wav"] true 5

/-- C1 counterexample: with old voiceprint `[1, 0]` (weight 1, since
`sample_count = 1`) and new call voiceprint `[0, 1]`, the claim says the
stored vector is `normalize(1 * [1, 0] + [0, 1]) = normalize [1, 1]`.  The
code stores `[0, 1]`, which is not the normalization of `[1, 1]` (it is not
any positive multiple of it). -/
theorem upsert_merge_ignores_old_vector_cex :
    storeGet spkC1res.1 "s1" = some ([0, 1], spkC1res.2) ∧
    ¬ IsNorml (vadd (vscale 1 [1, 0]) [0, 1]) [0, 1] := by
  constructor
  · decide
  · rintro ⟨⟨c, hc, h⟩, -⟩
    simp [vadd, vscale] at h
    obtain ⟨h0, h1⟩ := h
    rw [← h0] at h1
    exact absurd h1 (by norm_num)

/-- Enrolling one sample (one source) into an empty store, merge=true. -/
def spkC3first : SpkStore (List ℚ) × SpkPayload :=
  upsertSpeaker ([] : SpkStore (List ℚ)) "s1" "Alice" [] [1, 0] ["a.wav"] true 0

/-- Enrolling the same single sample again, merge=true. -/
def spkC3second : SpkStore (List ℚ) × SpkPayload :=
  upsertSpeaker spkC3first.1 "s1" "Alice" [] [1, 0] ["a.wav"] true 1

/-- C3: enrolling the same single sample twice with merge=true yields
`sample_count = 3`, not 2: the merge branch adds
`max 1 (len(prev_sources) + len(new_sources))`, double-counting the prior
source.  The payload is left internally inconsistent: `sample_count = 3`
while only 2 sources contributed. -/
theorem upsert_sample_count_double_counts :
    spkC3first.2.sample_count = 1 ∧
    spkC3second.2.sample_count = 3 ∧
    spkC3second.2.sources.length = 2 := by
  decide

/-! ## Enrollment pipeline (src/rag-backend/app/routers/speakers.py, enroll_speaker)
and the file-backed store of src/rag-backend/app/services/spk_embed.py. -/

/-- Sum of a non-empty family of vectors (`np.vstack` + columnwise sum). -/
def vsum : List (List ℚ) → List ℚ
  | [] => []
  | v :: vs => vs.foldl vadd v

/-- `np.vstack(vecs).mean(axis=0)`: componentwise arithmetic mean. -/
def vmean (vecs : List (List ℚ)) : List ℚ :=
  vscale (1 / vecs.length) (vsum vecs)

/-- Lines 399-408 of routers/speakers.py: keep the per-file voiceprints with
positive norm; if none is usable raise HTTP 400, else average them.  The
per-file voiceprints (outputs of `_embed_whole_file`) are the input. -/
def enrollVec (files : List (List ℚ)) : Except String (List ℚ) :=
  let vecs := files.filter (fun v => decide (0 < normSq v))
  match vecs with
  | [] => .error "could not extract embeddings from provided audio"
  | _ :: _ => .ok (vmean vecs)

/-- Squared Euclidean norm over `ℝ`, for the one step of the pipeline that
leaves `ℚ`: dividing by a square root. -/
noncomputable def normSqR (v : List ℝ) : ℝ := (v.map (fun x => x * x)).sum

/-- Lines 409-411 of routers/speakers.py: L2-normalize the averaged vector
when its norm is positive, else leave it (the zero vector) as is. -/
noncomputable def normStepR (m : List ℚ) : List ℝ :=
  if 0 < normSq m then m.map (fun (q : ℚ) => (q : ℝ) / Real.sqrt ((normSq m : ℚ) : ℝ))
  else m.map (fun (q : ℚ) => (q : ℝ))

/-- The enroll endpoint's store effect (lines 398-416 of routers/speakers.py):
given the per-file voiceprints, either fail with HTTP 400 leaving the store
untouched, or upsert the normalized mean. -/
noncomputable def enrollSpeaker (st : SpkStore (List ℝ)) (spk_id name : String)
    (tags : List String) (files : List (List ℚ)) (sources : List String) (merge : Bool)
    (now : Int) : SpkStore (List ℝ) × Except String SpkPayload :=
  match enrollVec files with
  | .error e => (st, .error e)
  | .ok m =>
      let r := upsertSpeaker st spk_id name tags (normStepR m) sources merge now
      (r.1, .ok r.2)

/-- C7: if no provided sample yields a voiceprint of positive norm, enrollment
fails with the HTTP 400 error and the store is unchanged: no profile is
written or modified. -/
theorem enroll_no_usable_audio_leaves_store (st : SpkStore (List ℝ)) (spk_id name : String)
    (tags : List String) (files : List (List ℚ)) (sources : List String) (merge : Bool)
    (now : Int) (h : ∀ v ∈ files, ¬ 0 < normSq v) :
    enrollSpeaker st spk_id name tags files sources merge now =
      (st, .error "could not extract embeddings from provided audio") := by
  have hfil : files.filter (fun v => decide (0 < normSq v)) = [] := by
    rw [List.filter_eq_nil_iff]
    intro v hv
    simpa using h v hv
  unfold enrollSpeaker enrollVec
  simp [hfil]

/-- C7 witness: a call whose only sample is the zero vector errors out on the
empty store and leaves it empty. -/
theorem enroll_no_usable_audio_leaves_store_witness :
    (∀ v ∈ [[(0 : ℚ), 0]], ¬ 0 < normSq v) ∧
    enrollSpeaker [] "s1" "Alice" [] [[(0 : ℚ), 0]] [] true 0 =
      ([], .error "could not extract embeddings from provided audio") :=
  ⟨by norm_num [normSq, dotQ],
   enroll_no_usable_audio_leaves_store [] "s1" "Alice" [] [[(0 : ℚ), 0]] [] true 0
    (by norm_num [normSq, dotQ])⟩

theorem normSq_cons (x : ℚ) (xs : List ℚ) : normSq (x :: xs) = x * x + normSq xs := by
  simp [normSq, dotQ]

theorem normSqR_cons (x : ℝ) (xs : List ℝ) : normSqR (x :: xs) = x * x + normSqR xs := by
  simp [normSqR]

theorem normSqR_map_div (m : List ℚ) (c : ℝ) (hc : c ≠ 0) :
    normSqR (m.map (fun (q : ℚ) => (q : ℝ) / c)) = ((normSq m : ℚ) : ℝ) / (c * c) := by
  induction m with
  | nil => simp [normSqR, normSq, dotQ]
  | cons x xs ih =>
      rw [List.map_cons, normSqR_cons, ih, normSq_cons]
      push_cast
      field_simp

/-- The normalization step yields a unit vector whenever the mean has positive
norm. -/
theorem normStepR_unit (m : List ℚ) (h : 0 < normSq m) : normSqR (normStepR m) = 1 := by
  have hR : (0 : ℝ) < ((normSq m : ℚ) : ℝ) := by exact_mod_cast h
  have hs : Real.sqrt ((normSq m : ℚ) : ℝ) ≠ 0 := by
    positivity
  rw [normStepR, if_pos h, normSqR_map_div m _ hs,
    Real.mul_self_sqrt hR.le, div_self hR.ne']

/-! ## services/spk_embed.py file store (SPEAKER_STORE = "file": the qdrant
client is disabled, so only the file branches run). -/

/-- `load_embedding` (spk_embed.py lines 247-254), file branch: the saved
`<id>.npy` vector, or `None` when no such file exists.  The directory of
`.npy` files is an association list. -/
def fileLoadEmbedding (files : List (String × List ℚ)) (spk_id : String) : Option (List ℚ) :=
  (files.find? (fun x => x.1 == spk_id)).map (fun x => x.2)

/-- `delete_speaker` (spk_embed.py lines 231-245), file branch: drop the id
from `index.json`; `ok` is true exactly when the index shrank. -/
def fileDeleteSpeaker (index : List (String × String)) (spk_id : String) :
    List (String × String) × Bool :=
  let items := index.filter (fun x => !(x.1 == spk_id))
  (items, decide (items.length ≠ index.length))

/-- `enroll_speaker` (spk_embed.py lines 212-229), file branch: save the raw
embedding `emb` under a fresh `spk_id` (`np.save`, no normalization) and
append `(id, name)` to `index.json`. -/
def spkEnrollFileStore (index : List (String × String)) (files : List (String × List ℚ))
    (spk_id name : String) (emb : List ℚ) :
    List (String × String) × List (String × List ℚ) :=
  (index ++ [(spk_id, name)], files ++ [(spk_id, emb)])

/-- `get_speaker` (routers/speakers.py lines 286-301): `retrieve` and raise
HTTP 404 when the id has no point. -/
def routerGetSpeaker {V : Type} (st : SpkStore V) (spk_id : String) : Except Nat SpkPayload :=
  match storeGet st spk_id with
  | none => .error 404
  | some (_, pl) => .ok pl

/-- C5 amended: (a) the spk_embed enrollment stores the raw embedding with no
normalization, so the stored norm is whatever the embedding backend produced;
(b) the speakers-router enrollment stores a unit vector whenever the mean of
the usable per-sample voiceprints has positive norm; (c) when that mean is
the zero vector it is stored unnormalized. -/
theorem enroll_normalization_characterized :
    (∀ (index : List (String × String)) (files : List (String × List ℚ))
        (spk_id name : String) (emb : List ℚ), (∀ x ∈ files, x.1 ≠ spk_id) →
        fileLoadEmbedding (spkEnrollFileStore index files spk_id name emb).2 spk_id =
          some emb) ∧
    (∀ (files : List (List ℚ)) (m : List ℚ), enrollVec files = .ok m → 0 < normSq m →
        normSqR (normStepR m) = 1) ∧
    (∀ m : List ℚ, ¬ 0 < normSq m → normStepR m = m.map (fun (q : ℚ) => (q : ℝ))) := by
  refine ⟨?_, ?_, ?_⟩
  · intro index files spk_id name emb hfree
    have hnone : files.find? (fun x => x.1 == spk_id) = none := by
      rw [List.find?_eq_none]
      intro x hx
      simpa using hfree x hx
    simp [spkEnrollFileStore, fileLoadEmbedding, List.find?_append, hnone, List.find?]
  · intro files m _ hm
    exact normStepR_unit m hm
  · intro m hm
    rw [normStepR, if_neg hm]

/-- C5 witness: enrolling the single usable voiceprint `[3, 4]` through the
router keeps a unit stored vector, while the spk_embed path stores `[2, 0]`
bit for bit. -/
theorem enroll_normalization_characterized_witness :
    fileLoadEmbedding (spkEnrollFileStore [] [("a", [1, 0])] "s1" "Bob" [2, 0]).2 "s1" =
      some [2, 0] ∧
    (enrollVec [[(3 : ℚ), 4]] = .ok (vmean [[(3 : ℚ), 4]]) ∧ 0 < normSq (vmean [[(3 : ℚ), 4]])) ∧
    normSqR (normStepR (vmean [[(3 : ℚ), 4]])) = 1 := by
  refine ⟨?_, ⟨?_, ?_⟩, ?_⟩
  · exact enroll_normalization_characterized.1 [] [("a", [1, 0])] "s1" "Bob" [2, 0]
      (by decide)
  · norm_num [enrollVec, normSq, dotQ]
  · norm_num [vmean, vsum, vscale, normSq, dotQ]
  · exact enroll_normalization_characterized.2.1 [[(3 : ℚ), 4]] (vmean [[(3 : ℚ), 4]])
      (by norm_num [enrollVec, normSq, dotQ]) (by norm_num [vmean, vsum, vscale, normSq, dotQ])

/-- C5 counterexample: the spk_embed enrollment writes the raw embedding
`[2, 0]`, whose squared norm is 4, not 1: the stored voiceprint is not
L2-normalized (off by 1 in norm, outside any tolerance below 1). -/
theorem stored_voiceprint_not_unit_cex :
    fileLoadEmbedding (spkEnrollFileStore [] [] "s1" "Bob" [2, 0]).2 "s1" = some [2, 0] ∧
    normSq [2, 0] = 4 ∧ (4 : ℚ) ≠ 1 := by
  refine ⟨by decide, by norm_num [normSq, dotQ], by norm_num⟩

/-- C9 amended: for an id not in the store, the service-layer file store
returns an empty result without error (`load_embedding` gives `None`,
`delete_speaker` gives `false` and leaves the index unchanged), but the
speakers router's GET endpoint raises HTTP 404 instead of returning an empty
result. -/
theorem missing_id_lookup_behavior :
    (∀ (files : List (String × List ℚ)) (spk_id : String), (∀ x ∈ files, x.1 ≠ spk_id) →
        fileLoadEmbedding files spk_id = none) ∧
    (∀ (index : List (String × String)) (spk_id : String), (∀ x ∈ index, x.1 ≠ spk_id) →
        fileDeleteSpeaker index spk_id = (index, false)) ∧
    (∀ (V : Type) (st : SpkStore V) (spk_id : String), storeGet st spk_id = none →
        routerGetSpeaker st spk_id = .error 404) := by
  refine ⟨?_, ?_, ?_⟩
  · intro files spk_id hfree
    have hnone : files.find? (fun x => x.1 == spk_id) = none := by
      rw [List.find?_eq_none]
      intro x hx
      simpa using hfree x hx
    simp [fileLoadEmbedding, hnone]
  · intro index spk_id hfree
    have hall : index.filter (fun x => !(x.1 == spk_id)) = index := by
      rw [List.filter_eq_self]
      intro x hx
      simpa using hfree x hx
    simp [fileDeleteSpeaker, hall]
  · intro V st spk_id hnone
    rw [routerGetSpeaker, hnone]

/-- C9 witness: a store holding only speaker `a` answers queries for the
missing id `b` with `None` / `false` / HTTP 404. -/
theorem missing_id_lookup_behavior_witness :
    fileLoadEmbedding [("a", [1, 0])] "b" = none ∧
    fileDeleteSpeaker [("a", "Alice")] "b" = ([("a", "Alice")], false) ∧
    routerGetSpeaker ([("a", ([1, 0], spkC1payload))] : SpkStore (List ℚ)) "b" =
      .error 404 := by
  refine ⟨?_, ?_, ?_⟩
  · exact missing_id_lookup_behavior.1 [("a", [1, 0])] "b" (by decide)
  · exact missing_id_lookup_behavior.2.1 [("a", "Alice")] "b" (by decide)
  · exact missing_id_lookup_behavior.2.2 (List ℚ) [("a", ([1, 0], spkC1payload))] "b"
      (by decide)

/-- C9 counterexample: GET for an id absent from the store does not return an
empty result: it raises the HTTP 404 error "speaker not found". -/
theorem router_get_missing_id_raises_cex :
    routerGetSpeaker (([] : SpkStore (List ℚ))) "ghost" = .error 404 ∧
    (Except.error 404 : Except Nat SpkPayload) ≠ .ok spkC1payload := by
  exact ⟨rfl, by simp⟩

/-! ## Speaking shares (src/rag-backend/app/routers/identify.py,
`_normalize_percents` lines 411-424 and `_calc_speaking_shares` lines
426-465) and segment enrichment (`_seg_speaker_name`, lines 573-601). -/

/-- A match candidate as the identify stores return it. -/
structure Cand where
  id : String
  name : String
  similarity : ℚ
  deriving DecidableEq, Repr

/-- One entry of `seg_results`: `{start_ms, end_ms, best, topk}` (the dict the
segment loop of `identify_endpoint` builds; it has no `speaker`/`name` key). -/
structure SegRes where
  start_ms : Int
  end_ms : Int
  best : Option Cand
  topk : List Cand
  deriving DecidableEq, Repr

/-- An enriched segment: the same dict with `speaker` and `duration_ms`
added (lines 592-601). -/
structure SegOut where
  start_ms : Int
  end_ms : Int
  best : Option Cand
  topk : List Cand
  speaker : String
  duration_ms : Int
  deriving DecidableEq, Repr

/-- One speaking share `{name, ms, percent}`. -/
structure Share where
  name : String
  ms : Int
  percent : ℚ
  deriving DecidableEq, Repr

/-- Insert into a descending-sorted list, after all entries with a key at
least as large (so the sort below is stable, like Python's `list.sort`). -/
def insDesc {α : Type} (key : α → ℚ) (x : α) : List α → List α
  | [] => [x]
  | y :: ys => if key x ≤ key y then y :: insDesc key x ys else x :: y :: ys

/-- Stable descending sort by a rational key: extensionally equal to Python's
stable `list.sort(key=..., reverse=True)`. -/
def sortDescBy {α : Type} (key : α → ℚ) (l : List α) : List α :=
  l.foldl (fun acc x => insDesc key x acc) []

/-- Python `round(q, 1)`.  Mathlib's `round` rounds half up while Python
rounds half to even; the two agree off exact `.05` ties and every input
considered here is off such ties. -/
def roundTenth (q : ℚ) : ℚ := ((round (q * 10) : ℤ) : ℚ) / 10

/-- The loop `for x in items: x[key] = x[key] * scale`. -/
def scaleShares (items : List Share) (c : ℚ) : List Share :=
  items.map (fun x => { x with percent := x.percent * c })

/-- `_normalize_percents(items)` (identify.py lines 411-424): scale so the
percents sum to 100; if floating drift leaves the sum off by more than 1e-6,
sort by percent descending (in place, so the caller's list ends up in that
order) and add the whole residual to the first (largest) bucket. -/
def normalizePercents (items : List Share) : List Share :=
  let s := (items.map (fun x => x.percent)).sum
  if s ≤ 0 then items
  else
    let scaled := scaleShares items (100 / s)
    let total := (scaled.map (fun x => x.percent)).sum
    if 1 / 1000000 < |total - 100| then
      match sortDescBy (fun x => x.percent) scaled with
      | [] => []
      | x :: xs => { x with percent := x.percent + (100 - total) } :: xs
    else scaled

/-- Python `str.strip()`: drop leading and trailing whitespace.  Written by
structural recursion over the character list so that concrete instances
evaluate; it agrees with Python on the ASCII whitespace all names here use. -/
def trimS (s : String) : String :=
  ⟨((s.data.dropWhile Char.isWhitespace).reverse.dropWhile Char.isWhitespace).reverse⟩

/-- The bucket key of a segment: the stripped best-candidate name, or the
literal "Unbekannt" when there is no best or its name is blank (lines
444-450; only `best` is consulted). -/
def segKey (s : SegOut) : String :=
  match s.best with
  | some b => if trimS b.name = "" then "Unbekannt" else trimS b.name
  | none => "Unbekannt"

/-- `max(0, end_ms - start_ms)`. -/
def segDur (s : SegOut) : Int := max 0 (s.end_ms - s.start_ms)

/-- The total bucketed duration (`total_ms` before the fallback). -/
def totalDurOf (segs : List SegOut) : Int := (segs.map segDur).sum

/-- Add a duration to an insertion-ordered bucket list (Python dict update). -/
def bump (bs : List (String × Int)) (k : String) (d : Int) : List (String × Int) :=
  match bs with
  | [] => [(k, d)]
  | (q, v) :: rest => if q = k then (q, v + d) :: rest else (q, v) :: bump rest k d

/-- The per-name duration buckets, in insertion order. -/
def bucketsOf (segs : List SegOut) : List (String × Int) :=
  segs.foldl (fun bs s => bump bs (segKey s) (segDur s)) []

/-- One raw share `{name, ms, percent}` of a bucket against total `T`
(`pct = 0.0 if total_ms <= 0 else ms / total_ms * 100`). -/
def mkShare (p : String × Int) (T : Int) : Share :=
  ⟨p.1, p.2, if T ≤ 0 then 0 else (p.2 : ℚ) / (T : ℚ) * 100⟩

/-- `_calc_speaking_shares` up to (and including) `_normalize_percents`, i.e.
everything but the final rounding to one decimal (lines 426-462). -/
def calcSharesCore (segs : List SegOut) (fd : Option Int) : List Share :=
  let total := totalDurOf segs
  let total' := if total ≤ 0 then
      (match fd with | some f => if f ≠ 0 then f else total | none => total)
    else total
  normalizePercents (sortDescBy (fun x => (x.ms : ℚ))
    ((bucketsOf segs).map (fun p => mkShare p total')))

/-- `_calc_speaking_shares` as returned: every percent rounded to one decimal
(lines 463-465). -/
def calcShares (segs : List SegOut) (fd : Option Int) : List Share :=
  (calcSharesCore segs fd).map (fun x => { x with percent := roundTenth x.percent })

theorem insDesc_perm {α : Type} (key : α → ℚ) (x : α) (l : List α) :
    List.Perm (insDesc key x l) (x :: l) := by
  induction l with
  | nil => exact List.Perm.refl _
  | cons y ys ih =>
      unfold insDesc
      by_cases h : key x ≤ key y
      · rw [if_pos h]
        exact (ih.cons y).trans (List.Perm.swap x y ys)
      · rw [if_neg h]

theorem sortDescBy_perm {α : Type} (key : α → ℚ) (l : List α) :
    List.Perm (sortDescBy key l) l := by
  have aux : ∀ (l acc : List α),
      List.Perm (l.foldl (fun a x => insDesc key x a) acc) (l ++ acc) := by
    intro l
    induction l with
    | nil => intro acc; simp
    | cons x xs ih =>
        intro acc
        have h1 : (x :: xs).foldl (fun a y => insDesc key y a) acc
            = xs.foldl (fun a y => insDesc key y a) (insDesc key x acc) := rfl
        have h3 : List.Perm (xs ++ insDesc key x acc) (xs ++ (x :: acc)) :=
          List.Perm.append_left xs (insDesc_perm key x acc)
        rw [h1]
        exact ((ih (insDesc key x acc)).trans (h3.trans List.perm_middle))
  simpa using aux l []

theorem scaleShares_sum (items : List Share) (c : ℚ) :
    ((scaleShares items c).map (fun x => x.percent)).sum =
      ((items.map (fun x => x.percent)).sum) * c := by
  induction items with
  | nil => simp [scaleShares]
  | cons x xs ih =>
      simp only [scaleShares, List.map_cons, List.sum_cons] at ih ⊢
      rw [ih]
      ring

/-- Exact arithmetic: whenever the raw percents have positive sum, the
normalization scales them to sum exactly 100 (the drift branch is about
float rounding and cannot fire over `ℚ`). -/
theorem normalizePercents_sum (items : List Share)
    (hs : 0 < (items.map (fun x => x.percent)).sum) :
    ((normalizePercents items).map (fun x => x.percent)).sum = 100 := by
  have h100 : ((items.map (fun x => x.percent)).sum) *
      (100 / (items.map (fun x => x.percent)).sum) = 100 := by
    field_simp
  simp only [normalizePercents]
  rw [if_neg (not_le.mpr hs)]
  simp only [scaleShares_sum, h100]
  rw [if_neg (by norm_num : ¬ (1 / 1000000 : ℚ) < |(100 : ℚ) - 100|)]
  rw [scaleShares_sum, h100]

theorem bump_snd_sum (bs : List (String × Int)) (k : String) (d : Int) :
    ((bump bs k d).map (fun p => p.2)).sum = ((bs.map (fun p => p.2)).sum) + d := by
  induction bs with
  | nil => simp [bump]
  | cons p rest ih =>
      obtain ⟨q, v⟩ := p
      by_cases h : q = k
      · simp only [bump, if_pos h, List.map_cons, List.sum_cons]
        ring
      · simp only [bump, if_neg h, List.map_cons, List.sum_cons, ih]
        ring

theorem bucketsOf_snd_sum (segs : List SegOut) :
    ((bucketsOf segs).map (fun p => p.2)).sum = totalDurOf segs := by
  have aux : ∀ (l : List SegOut) (bs : List (String × Int)),
      ((l.foldl (fun b s => bump b (segKey s) (segDur s)) bs).map (fun p => p.2)).sum
        = ((bs.map (fun p => p.2)).sum) + totalDurOf l := by
    intro l
    induction l with
    | nil => intro bs; simp [totalDurOf]
    | cons s ss ih =>
        intro bs
        simp only [List.foldl_cons]
        rw [ih, bump_snd_sum]
        simp only [totalDurOf, List.map_cons, List.sum_cons]
        ring
  simpa [bucketsOf] using aux segs []

theorem shares_percent_sum (bs : List (String × Int)) (T : Int) (hT : ¬ T ≤ 0) :
    ((bs.map (fun p => mkShare p T)).map (fun x => x.percent)).sum =
      (((bs.map (fun p => p.2)).sum : Int) : ℚ) / (T : ℚ) * 100 := by
  induction bs with
  | nil => simp
  | cons p rest ih =>
      simp only [List.map_cons, List.sum_cons]
      rw [ih]
      simp only [mkShare, if_neg hT]
      push_cast
      ring

theorem calcSharesCore_sum (segs : List SegOut) (fd : Option Int)
    (h : 0 < totalDurOf segs) :
    ((calcSharesCore segs fd).map (fun x => x.percent)).sum = 100 := by
  have hT : ¬ totalDurOf segs ≤ 0 := not_le.mpr h
  simp only [calcSharesCore, if_neg hT]
  apply normalizePercents_sum
  rw [((sortDescBy_perm (fun x => ((x.ms : Int) : ℚ))
      ((bucketsOf segs).map (fun p => mkShare p (totalDurOf segs)))).map
      (fun x => x.percent)).sum_eq,
    shares_percent_sum _ _ hT, bucketsOf_snd_sum]
  have hq : (0 : ℚ) < ((totalDurOf segs : Int) : ℚ) := by exact_mod_cast h
  rw [div_self hq.ne']
  norm_num

/-- C2 amended: for any segment list with positive total bucketed duration,
the percents sum to exactly 100 BEFORE the final rounding; the values the
aggregator actually returns are those percents rounded to one decimal
(`round(x, 1)`), which can move the sum off 100 by up to 0.05 per bucket. -/
theorem speaking_shares_sum_pre_rounding (segs : List SegOut) (fd : Option Int)
    (h : 0 < totalDurOf segs) :
    ((calcSharesCore segs fd).map (fun x => x.percent)).sum = 100 ∧
    calcShares segs fd = (calcSharesCore segs fd).map
      (fun x => { x with percent := roundTenth x.percent }) :=
  ⟨calcSharesCore_sum segs fd h, rfl⟩

/-- C2 witness: a single-segment list of duration 2 labeled "A". -/
theorem speaking_shares_sum_pre_rounding_witness :
    0 < totalDurOf [⟨0, 2, some ⟨"a1", "A", 1⟩, [], "A", 2⟩] ∧
    ((calcSharesCore [⟨0, 2, some ⟨"a1", "A", 1⟩, [], "A", 2⟩] none).map
      (fun x => x.percent)).sum = 100 :=
  ⟨by decide, (speaking_shares_sum_pre_rounding [⟨0, 2, some ⟨"a1", "A", 1⟩, [], "A", 2⟩]
    none (by decide)).1⟩

/-- Three equal one-millisecond segments identified as "A", "B", "C". -/
def segsC2 : List SegOut :=
  [⟨0, 1, some ⟨"a1", "A", 1⟩, [], "A", 1⟩,
   ⟨1, 2, some ⟨"b1", "B", 1⟩, [], "B", 1⟩,
   ⟨2, 3, some ⟨"c1", "C", 1⟩, [], "C", 1⟩]

/-- C2 counterexample: for three equal buckets the aggregator returns
33.3 + 33.3 + 33.3 = 99.9 percent — the returned percentages (rounded to one
decimal as the last step) do NOT sum to 100 within 1e-6. -/
theorem rounded_shares_sum_not_100_cex :
    ((calcShares segsC2 none).map (fun x => x.percent)).sum = 999 / 10 ∧
    ¬ |(999 : ℚ) / 10 - 100| ≤ 1 / 1000000 := by
  constructor
  · have hb : bucketsOf segsC2 = [("A", 1), ("B", 1), ("C", 1)] := by decide
    have ht : totalDurOf segsC2 = 3 := by decide
    simp only [calcShares, calcSharesCore, hb, ht]
    norm_num [mkShare, sortDescBy, insDesc, normalizePercents, scaleShares, roundTenth,
      round_eq]
  · rw [abs_of_nonpos (by norm_num)]
    norm_num

/-- `nm = b.get("name") or b.get("id"); if nm.strip(): return nm.strip()` of
`_seg_speaker_name`: the usable display name of a candidate dict. -/
def pickName (name id : String) : Option String :=
  let nm := if name = "" then id else name
  if trimS nm = "" then none else some (trimS nm)

/-- The `topk` fallback of `_seg_speaker_name`: first candidate's name. -/
def topkName (tk : List Cand) : Option String :=
  match tk with
  | [] => none
  | c :: _ => pickName c.name c.id

/-- `_seg_speaker_name(seg)` (identify.py lines 573-590) on the
`seg_results` dicts, which carry no `speaker`/`name` key: try `best`, then
`topk[0]`, else `None`. -/
def segSpeakerName (seg : SegRes) : Option String :=
  match seg.best with
  | some b =>
      match pickName b.name b.id with
      | some s => some s
      | none => topkName seg.topk
  | none => topkName seg.topk

/-- The enrichment loop (identify.py lines 592-601): add
`speaker := _seg_speaker_name(seg) or "Unbekannt"` and `duration_ms`. -/
def enrich (seg : SegRes) : SegOut :=
  ⟨seg.start_ms, seg.end_ms, seg.best, seg.topk,
   (segSpeakerName seg).getD "Unbekannt", max 0 (seg.end_ms - seg.start_ms)⟩

/-- C10: a segment whose `best` is `None` (below threshold) but whose `topk`
is non-empty gets `speaker` set to the below-threshold top candidate's name,
while the speaking-share computation — which only consults `best` — buckets
the segment's whole duration under "Unbekannt" (here: 100 percent). -/
theorem below_threshold_name_vs_unknown_share (seg : SegRes) (c : Cand) (cs : List Cand)
    (nm : String) (hbest : seg.best = none) (htop : seg.topk = c :: cs)
    (hnm : pickName c.name c.id = some nm) (hdur : 0 < seg.end_ms - seg.start_ms) :
    (enrich seg).speaker = nm ∧
    calcShares [enrich seg] none = [⟨"Unbekannt", seg.end_ms - seg.start_ms, 100⟩] := by
  constructor
  · simp [enrich, segSpeakerName, hbest, htop, topkName, hnm]
  · have hdur' : segDur (enrich seg) = seg.end_ms - seg.start_ms := by
      simp only [segDur, enrich]
      exact max_eq_right hdur.le
    have hkey : segKey (enrich seg) = "Unbekannt" := by
      simp [segKey, enrich, hbest]
    have htot : totalDurOf [enrich seg] = seg.end_ms - seg.start_ms := by
      simp [totalDurOf, hdur']
    have hT : ¬ (seg.end_ms - seg.start_ms ≤ 0) := not_le.mpr hdur
    have hq : ((seg.end_ms - seg.start_ms : Int) : ℚ) ≠ 0 := by
      exact_mod_cast hdur.ne'
    have hT2 : ¬ seg.end_ms ≤ seg.start_ms := by omega
    have hq2 : ((seg.end_ms : ℚ) - (seg.start_ms : ℚ)) ≠ 0 := by
      intro h0
      apply hq
      push_cast
      exact h0
    simp only [calcShares, calcSharesCore, htot, bucketsOf, List.foldl, bump, hkey, hdur',
      if_neg hT]
    norm_num [mkShare, if_neg hT, if_neg hT2, sortDescBy, insDesc, normalizePercents,
      scaleShares, roundTenth, round_eq, div_self hq, div_self hq2]

/-- C10 witness: the segment `(0, 5)` with best `None` and one ranked
candidate "Alice" reports `speaker = "Alice"` while its 5 ms land entirely in
the "Unbekannt" share. -/
theorem below_threshold_name_vs_unknown_share_witness :
    (pickName "Alice" "id1" = some "Alice" ∧
      0 < (5 : Int) - 0) ∧
    (enrich ⟨0, 5, none, [⟨"id1", "Alice", 0⟩]⟩).speaker = "Alice" ∧
    calcShares [enrich ⟨0, 5, none, [⟨"id1", "Alice", 0⟩]⟩] none =
      [⟨"Unbekannt", (5 : Int) - 0, 100⟩] :=
  ⟨⟨by decide, by decide⟩,
   below_threshold_name_vs_unknown_share ⟨0, 5, none, [⟨"id1", "Alice", 0⟩]⟩
     ⟨"id1", "Alice", 0⟩ [] "Alice" rfl rfl (by decide) (by decide)⟩

/-! ## Segment builder (src/rag-backend/app/routers/diarize.py,
`_probs_to_segments` lines 125-188): the collar merge pass and the
min-duration filter over millisecond intervals. -/

/-- A raw speech interval `{start_ms, end_ms}`. -/
structure Iv where
  start_ms : Int
  end_ms : Int
  deriving DecidableEq, Repr

/-- The merge loop body (lines 160-169): keep extending the accumulator
interval `cur` while the next interval starts within `collar` of its end
(`s["start_ms"] - last["end_ms"] <= collar_ms`), taking the max end;
otherwise emit `cur` and restart from `s`. -/
def mergeGo (collar : Int) (cur : Iv) : List Iv → List Iv
  | [] => [cur]
  | s :: rest =>
      if s.start_ms - cur.end_ms ≤ collar then
        mergeGo collar ⟨cur.start_ms, max cur.end_ms s.end_ms⟩ rest
      else
        cur :: mergeGo collar s rest

/-- `merge_close`: the single linear pass starting from the first interval
(`merged = [out[0]]`). -/
def mergeClose (collar : Int) : List Iv → List Iv
  | [] => []
  | x :: xs => mergeGo collar x xs

/-- `drop_short` (lines 171-174): keep intervals of duration at least
`min_ms`. -/
def dropShort (minMs : Int) (l : List Iv) : List Iv :=
  l.filter (fun iv => minMs ≤ iv.end_ms - iv.start_ms)

theorem mergeGo_head (collar : Int) (l : List Iv) : ∀ cur : Iv,
    ∃ e tl, mergeGo collar cur l = ⟨cur.start_ms, e⟩ :: tl ∧ cur.end_ms ≤ e := by
  induction l with
  | nil => exact fun cur => ⟨cur.end_ms, [], rfl, le_refl _⟩
  | cons s rest ih =>
      intro cur
      unfold mergeGo
      by_cases h : s.start_ms - cur.end_ms ≤ collar
      · rw [if_pos h]
        obtain ⟨e, tl, heq, hle⟩ := ih ⟨cur.start_ms, max cur.end_ms s.end_ms⟩
        exact ⟨e, tl, heq, le_trans (le_max_left _ _) hle⟩
      · rw [if_neg h]
        exact ⟨cur.end_ms, mergeGo collar s rest, rfl, le_refl _⟩

theorem mergeGo_valid (collar : Int) (l : List Iv) : ∀ cur : Iv,
    cur.start_ms < cur.end_ms → (∀ x ∈ l, x.start_ms < x.end_ms) →
    ∀ y ∈ mergeGo collar cur l, y.start_ms < y.end_ms := by
  induction l with
  | nil =>
      intro cur hc _ y hy
      simp only [mergeGo, List.mem_singleton] at hy
      simpa [hy] using hc
  | cons s rest ih =>
      intro cur hc hl y hy
      unfold mergeGo at hy
      by_cases h : s.start_ms - cur.end_ms ≤ collar
      · rw [if_pos h] at hy
        exact ih ⟨cur.start_ms, max cur.end_ms s.end_ms⟩
          (lt_of_lt_of_le hc (le_max_left _ _))
          (fun x hx => hl x (List.mem_cons_of_mem _ hx)) y hy
      · rw [if_neg h] at hy
        rcases List.mem_cons.mp hy with hy | hy
        · simpa [hy] using hc
        · exact ih s (hl s (List.mem_cons_self _ _))
            (fun x hx => hl x (List.mem_cons_of_mem _ hx)) y hy

theorem mergeGo_chain (collar : Int) (hcol : 0 ≤ collar) (l : List Iv) : ∀ cur : Iv,
    (∀ x ∈ l, x.start_ms < x.end_ms) →
    List.Pairwise (fun a b => a.start_ms ≤ b.start_ms) (cur :: l) →
    List.Chain' (fun a b => a.end_ms < b.start_ms) (mergeGo collar cur l) := by
  induction l with
  | nil => intro cur _ _; simp [mergeGo]
  | cons s rest ih =>
      intro cur hl hsort
      obtain ⟨hcur_all, htail⟩ := List.pairwise_cons.mp hsort
      obtain ⟨hs_all, hrest⟩ := List.pairwise_cons.mp htail
      unfold mergeGo
      by_cases h : s.start_ms - cur.end_ms ≤ collar
      · rw [if_pos h]
        apply ih ⟨cur.start_ms, max cur.end_ms s.end_ms⟩
          (fun x hx => hl x (List.mem_cons_of_mem _ hx))
        rw [List.pairwise_cons]
        refine ⟨fun b hb => ?_, hrest⟩
        exact hcur_all b (List.mem_cons_of_mem _ hb)
      · rw [if_neg h]
        obtain ⟨e, tl, heq, _⟩ := mergeGo_head collar rest s
        rw [heq, List.chain'_cons]
        constructor
        · show cur.end_ms < s.start_ms
          omega
        · rw [← heq]
          exact ih s (fun x hx => hl x (List.mem_cons_of_mem _ hx)) htail

theorem chain_strict_pairwise (l : List Iv)
    (hch : List.Chain' (fun a b => a.end_ms < b.start_ms) l)
    (hv : ∀ x ∈ l, x.start_ms < x.end_ms) :
    List.Pairwise (fun a b => a.end_ms < b.start_ms) l := by
  induction l with
  | nil => simp
  | cons x xs ih =>
      have hp := ih hch.tail (fun a ha => hv a (List.mem_cons_of_mem _ ha))
      rw [List.pairwise_cons]
      refine ⟨?_, hp⟩
      intro b hb
      rcases xs with _ | ⟨y, ys⟩
      · cases hb
      · have hxy : x.end_ms < y.start_ms := (List.chain'_cons.mp hch).1
        rcases List.mem_cons.mp hb with hb | hb
        · simpa [hb] using hxy
        · have hyv : y.start_ms < y.end_ms := hv y (by simp)
          have hyb : y.end_ms < b.start_ms :=
            (List.pairwise_cons.mp hp).1 b hb
          omega

/-- C6: on an input interval list that is ordered by start and whose
intervals have positive duration (the stated input invariants), `merge_close`
with any non-negative collar followed by `drop_short` with any `min_ms`
yields pairwise non-overlapping intervals, each of duration at least
`min_ms`.  (`collar_ms = int(collar_s * 1000)` with `collar_s > 0` is always
non-negative in the source.) -/
theorem merge_then_drop_clean (collar minMs : Int) (l : List Iv)
    (hcol : 0 ≤ collar)
    (hsort : List.Pairwise (fun a b => a.start_ms ≤ b.start_ms) l)
    (hval : ∀ x ∈ l, x.start_ms < x.end_ms) :
    List.Pairwise (fun a b => a.end_ms < b.start_ms)
      (dropShort minMs (mergeClose collar l)) ∧
    ∀ x ∈ dropShort minMs (mergeClose collar l), minMs ≤ x.end_ms - x.start_ms := by
  constructor
  · apply List.Pairwise.sublist (List.filter_sublist _)
    cases l with
    | nil => simp [mergeClose]
    | cons x xs =>
        have hv : ∀ a ∈ x :: xs, a.start_ms < a.end_ms := hval
        exact chain_strict_pairwise _
          (mergeGo_chain collar hcol xs x
            (fun a ha => hv a (List.mem_cons_of_mem _ ha)) hsort)
          (mergeGo_valid collar xs x (hv x (List.mem_cons_self _ _))
            (fun a ha => hv a (List.mem_cons_of_mem _ ha)))
  · intro x hx
    have := (List.mem_filter.mp hx).2
    simpa using this

/-- C6 witness: `[(0,10), (12,30), (100,140)]` with collar 5 and
min_speech 20 merges the first two intervals and keeps both results. -/
theorem merge_then_drop_clean_witness :
    ((0 : Int) ≤ 5 ∧
      List.Pairwise (fun (a b : Iv) => a.start_ms ≤ b.start_ms)
        [⟨0, 10⟩, ⟨12, 30⟩, ⟨100, 140⟩] ∧
      ∀ x ∈ ([⟨0, 10⟩, ⟨12, 30⟩, ⟨100, 140⟩] : List Iv), x.start_ms < x.end_ms) ∧
    List.Pairwise (fun (a b : Iv) => a.end_ms < b.start_ms)
      (dropShort 20 (mergeClose 5 [⟨0, 10⟩, ⟨12, 30⟩, ⟨100, 140⟩])) ∧
    ∀ x ∈ dropShort 20 (mergeClose 5 [⟨0, 10⟩, ⟨12, 30⟩, ⟨100, 140⟩]),
      (20 : Int) ≤ x.end_ms - x.start_ms :=
  ⟨⟨by decide, by decide, by decide⟩,
   merge_then_drop_clean 5 20 [⟨0, 10⟩, ⟨12, 30⟩, ⟨100, 140⟩]
     (by decide) (by decide) (by decide)⟩

/-! ## Identify best-candidate selection (identify.py lines 521-531, overall,
and lines 546-570, per segment). -/

/-- Python `str.lower()` (ASCII case folding suffices for the names here),
written over the character list so concrete instances evaluate. -/
def lowerS (s : String) : String := ⟨s.data.map Char.toLower⟩

/-- `p` starts `l`. -/
def leadsWith : List Char → List Char → Bool
  | [], _ => true
  | _ :: _, [] => false
  | a :: as, b :: bs => a == b && leadsWith as bs

/-- Python substring containment `p in l`. -/
def hasSub (p : List Char) : List Char → Bool
  | [] => leadsWith p []
  | c :: cs => leadsWith p (c :: cs) || hasSub p cs

/-- `any(h.lower() in str(cand.get("name", "")).lower() for h in hints_list)`:
some hint is a case-insensitive substring of the candidate's name. -/
def hintMatches (hints : List String) (name : String) : Bool :=
  hints.any (fun h => hasSub (lowerS h).data (lowerS name).data)

/-- The additive hint bonus: `0.01 if (hints_list and any(...)) else 0.0`. -/
def hintBonus (hints : List String) (c : Cand) : ℚ :=
  if !hints.isEmpty && hintMatches hints c.name then 1 / 100 else 0

/-- Build `(cand, sim + bonus)` pairs, sort by the biased similarity
descending (stable) and strip the bias again — as both the overall and the
per-segment loop do. -/
def rebias (hints : List String) (topk : List Cand) : List Cand :=
  sortDescBy (fun c => c.similarity + hintBonus hints c) topk

/-- The per-segment selection (identify.py lines 553-570): `best` from the
raw store order, then re-bias and re-sort, then
`best = topk[0] if topk[0].similarity >= th else best`. -/
def segSelect (topk : List Cand) (hints : List String) (th : ℚ) :
    Option Cand × List Cand :=
  let best0 := match topk with
    | [] => none
    | c :: _ => if th ≤ c.similarity then some c else none
  match topk with
  | [] => (best0, topk)
  | _ :: _ =>
      let tk := rebias hints topk
      let best := match tk with
        | [] => best0
        | c :: _ => if th ≤ c.similarity then some c else best0
      (best, tk)

/-- The overall selection (identify.py lines 521-531): `best_overall = None`
unless the re-sorted top candidate's similarity meets the threshold. -/
def overallSelect (topk : List Cand) (hints : List String) (th : ℚ) :
    Option Cand × List Cand :=
  match topk with
  | [] => (none, topk)
  | _ :: _ =>
      let tk := rebias hints topk
      let best := match tk with
        | [] => none
        | c :: _ => if th ≤ c.similarity then some c else none
      (best, tk)

theorem rebias_nil (hints : List String) : rebias hints [] = [] := rfl

/-- C8 amended: candidates matching a hint case-insensitively get +0.01 as a
sort key and the list is re-sorted by it.  On the overall path, `best` is the
re-sorted top candidate iff the list is non-empty and that candidate's
(unbiased) similarity is at least the threshold, else `None` — as the claim
says.  On the per-segment path, when the re-sorted top is below the
threshold, `best` falls back to the pre-bias top candidate if that one met
the threshold (else `None`): it is then not the top-ranked candidate and not
`None`. -/
theorem identify_best_selection :
    (∀ (hints : List String) (th : ℚ), overallSelect [] hints th = (none, [])) ∧
    (∀ (topk : List Cand) (hints : List String) (th : ℚ) (c : Cand) (tl : List Cand),
        rebias hints topk = c :: tl →
        overallSelect topk hints th =
          ((if th ≤ c.similarity then some c else none), c :: tl)) ∧
    (∀ (topk : List Cand) (hints : List String) (th : ℚ) (c₀ : Cand) (tl₀ : List Cand)
        (c : Cand) (tl : List Cand), topk = c₀ :: tl₀ → rebias hints topk = c :: tl →
        segSelect topk hints th =
          ((if th ≤ c.similarity then some c
            else if th ≤ c₀.similarity then some c₀ else none), c :: tl)) := by
  refine ⟨fun hints th => rfl, ?_, ?_⟩
  · intro topk hints th c tl heq
    cases topk with
    | nil => rw [rebias_nil] at heq; cases heq
    | cons c₀ tl₀ =>
        simp only [overallSelect, heq]
  · intro topk hints th c₀ tl₀ c tl htop heq
    subst htop
    simp only [segSelect, heq]

/-- C8 witness: a single candidate of similarity 1 with no hints is both the
overall and the per-segment best at threshold 1. -/
theorem identify_best_selection_witness :
    overallSelect [] ["x"] 1 = (none, []) ∧
    rebias [] [⟨"a1", "A", 1⟩] = [⟨"a1", "A", 1⟩] ∧
    overallSelect [⟨"a1", "A", 1⟩] [] 1 =
      ((if (1 : ℚ) ≤ (1 : ℚ) then some ⟨"a1", "A", 1⟩ else none), [⟨"a1", "A", 1⟩]) ∧
    segSelect [⟨"a1", "A", 1⟩] [] 1 =
      ((if (1 : ℚ) ≤ (1 : ℚ) then some (⟨"a1", "A", 1⟩ : Cand)
        else if (1 : ℚ) ≤ (1 : ℚ) then some ⟨"a1", "A", 1⟩ else none),
       [⟨"a1", "A", 1⟩]) :=
  ⟨identify_best_selection.1 ["x"] 1, rfl,
   identify_best_selection.2.1 [⟨"a1", "A", 1⟩] [] 1 ⟨"a1", "A", 1⟩ [] rfl,
   identify_best_selection.2.2 [⟨"a1", "A", 1⟩] [] 1 ⟨"a1", "A", 1⟩ []
     ⟨"a1", "A", 1⟩ [] rfl rfl⟩

/-- Candidate "Alf": raw similarity 0.85, no hint match. -/
def candAlf : Cand := ⟨"a1", "Alf", 85 / 100⟩

/-- Candidate "Bob": raw similarity 0.845, matches hint "bob". -/
def candBob : Cand := ⟨"b1", "Bob", 845 / 1000⟩

/-- C8 counterexample: with threshold 0.85 and hint "bob", the re-sorted list
is `[Bob, Alf]` (Bob's biased similarity 0.855 wins), Bob's raw similarity
0.845 is below the threshold — so by the claim `best` must be `None` — yet
the per-segment code returns `best = Alf`, the pre-bias top. -/
theorem seg_best_fallback_cex :
    (segSelect [candAlf, candBob] ["bob"] (85 / 100)).1 = some candAlf ∧
    (segSelect [candAlf, candBob] ["bob"] (85 / 100)).2 = [candBob, candAlf] ∧
    candBob.similarity < 85 / 100 ∧ some candAlf ≠ (none : Option Cand) := by
  have hb : hintBonus ["bob"] candBob = 1 / 100 := by
    rw [hintBonus, if_pos (by decide)]
  have ha : hintBonus ["bob"] candAlf = 0 := by
    rw [hintBonus, if_neg (by decide)]
  have hreb : rebias ["bob"] [candAlf, candBob] = [candBob, candAlf] := by
    simp only [rebias, sortDescBy, List.foldl, insDesc, hb, ha]
    rw [if_neg (by norm_num [candAlf, candBob])]
  refine ⟨?_, ?_, by norm_num [candBob], by simp⟩
  · simp only [segSelect, hreb]
    rw [if_neg (by norm_num [candBob]), if_pos (by norm_num [candAlf])]
  · simp only [segSelect, hreb]

/-! ## Clusterer (unsupervised path).  No clusterer exists under src/ — only
the spec describes it (section 4.4) — so the definitions below are modelled
from the spec and claim C4 is settled against them. -/

/-- Modelled from the spec: the comparison "cosine similarity of `e` to `x`
is at least its similarity to `y`".  The spec's clusterer computes cosine
similarity to every centroid and takes the arg-max; since cosine is
scale-invariant, the spec's "normalize before comparing" is captured by
comparing exactly.  Squaring eliminates the square roots: for nonzero
vectors, `cos(e,x) ≥ cos(e,y) ↔ dx·√ny ≥ dy·√nx`, decided by sign analysis
and comparing squares. -/
def simGeSimB (e x y : List ℚ) : Bool :=
  let dx := dotQ e x
  let dy := dotQ e y
  if 0 ≤ dx then decide (dy < 0) || decide (dy * dy * normSq x ≤ dx * dx * normSq y)
  else decide (dy < 0) && decide (dx * dx * normSq y ≤ dy * dy * normSq x)

/-- Modelled from the spec: `cos(e,c) ≥ t` (the `new_cluster_threshold`
test), decided exactly over `ℚ` by the same sign-and-squares analysis. -/
def simGeB (t : ℚ) (e c : List ℚ) : Bool :=
  let d := dotQ e c
  if 0 ≤ d then decide (t ≤ 0) || decide (t * t * (normSq e * normSq c) ≤ d * d)
  else decide (t < 0) && decide (d * d ≤ t * t * (normSq e * normSq c))

/-- Modelled from the spec: the arg-max scan over the centroid list.  The
running best is replaced only by a strictly more similar centroid, so on
ties the lowest existing cluster id wins, as the spec requires. -/
def amGo (e : List ℚ) : ℕ → List ℚ → ℕ → List (List ℚ) → ℕ × List ℚ
  | bi, bc, _, [] => (bi, bc)
  | bi, bc, i, c :: cs =>
      if simGeSimB e bc c then amGo e bi bc (i + 1) cs
      else amGo e i c (i + 1) cs

/-- Modelled from the spec: the clusterer state, "a growing list of
centroids, each with a running observation count". -/
structure CState where
  cents : List (List ℚ × ℕ)
  deriving Repr

/-- Modelled from the spec: the running-mean centroid update
`centroid_j = (centroid_j * count_j + embedding) / (count_j + 1)`. -/
def runMean (c : List ℚ) (count : ℕ) (e : List ℚ) : List ℚ :=
  vscale (1 / ((count : ℚ) + 1)) (vadd (vscale (count : ℚ) c) e)

/-- Modelled from the spec: `assign(embedding) -> ClusterId`.  If no
centroids exist, create centroid 0 with count 1; else take the arg-max `j`
by cosine similarity; below `new_cluster_threshold` append a new centroid,
otherwise update centroid `j` as the running mean. -/
def assign (t : ℚ) (st : CState) (e : List ℚ) : ℕ × CState :=
  match st.cents with
  | [] => (0, ⟨[(e, 1)]⟩)
  | c₀ :: rest =>
      let r := amGo e 0 c₀.1 1 (rest.map (fun p => p.1))
      if simGeB t e r.2 then
        let old := st.cents.getD r.1 ([], 0)
        (r.1, ⟨st.cents.set r.1 (runMean old.1 old.2 e, old.2 + 1)⟩)
      else
        (st.cents.length, ⟨st.cents ++ [(e, 1)]⟩)

theorem dotQ_self_eq (e : List ℚ) : dotQ e e = normSq e := rfl

theorem simGeB_self (t : ℚ) (e : List ℚ) (hSe : 0 < normSq e) (ht : t ≤ 1) :
    simGeB t e e = true := by
  simp only [simGeB, dotQ_self_eq]
  rw [if_pos hSe.le]
  by_cases h0 : t ≤ 0
  · simp [h0]
  · have h1 : 0 < t := not_le.mp h0
    have htt : t * t ≤ 1 := mul_le_one₀ ht h1.le ht
    have hSS : (0 : ℚ) ≤ normSq e * normSq e := by positivity
    have : t * t * (normSq e * normSq e) ≤ normSq e * normSq e := by
      nlinarith
    simp [this]

theorem simGeSimB_lt_self (t : ℚ) (e c : List ℚ) (hSe : 0 < normSq e)
    (hSc : 0 < normSq c) (ht : t ≤ 1) (hng : simGeB t e c = false) :
    simGeSimB e c e = false := by
  simp only [simGeB] at hng
  simp only [simGeSimB, dotQ_self_eq]
  by_cases hd : 0 ≤ dotQ e c
  · rw [if_pos hd] at hng ⊢
    simp only [Bool.or_eq_false_iff, decide_eq_false_iff_not, not_le, not_lt] at hng
    obtain ⟨h1, h2⟩ := hng
    have htt : t * t ≤ 1 := mul_le_one₀ ht h1.le ht
    have hprod : (0 : ℚ) < normSq e * normSq c := mul_pos hSe hSc
    have hdd : dotQ e c * dotQ e c < normSq e * normSq c := by
      nlinarith
    simp only [Bool.or_eq_false_iff, decide_eq_false_iff_not, not_le, not_lt]
    refine ⟨hSe.le, ?_⟩
    have hgap : (0 : ℚ) < normSq e * normSq c - dotQ e c * dotQ e c := by linarith
    nlinarith [mul_pos hSe hgap]
  · rw [if_neg hd]
    simp only [Bool.and_eq_false_iff, decide_eq_false_iff_not, not_lt]
    left
    exact hSe.le

theorem amGo_mem (e : List ℚ) (l : List (List ℚ)) : ∀ (bi i : ℕ) (bc : List ℚ),
    (amGo e bi bc i l).2 = bc ∨ (amGo e bi bc i l).2 ∈ l := by
  induction l with
  | nil => intro bi i bc; left; rfl
  | cons c cs ih =>
      intro bi i bc
      simp only [amGo]
      by_cases h : simGeSimB e bc c
      · rw [if_pos h]
        rcases ih bi (i + 1) bc with hm | hm
        · left; exact hm
        · right; exact List.mem_cons_of_mem _ hm
      · rw [if_neg h]
        rcases ih i (i + 1) c with hm | hm
        · right; rw [hm]; exact List.mem_cons_self _ _
        · right; exact List.mem_cons_of_mem _ hm

theorem amGo_last (e f : List ℚ) (cs : List (List ℚ)) : ∀ (bi i : ℕ) (bc : List ℚ),
    simGeSimB e bc f = false → (∀ c ∈ cs, simGeSimB e c f = false) →
    amGo e bi bc i (cs ++ [f]) = (i + cs.length, f) := by
  induction cs with
  | nil =>
      intro bi i bc hbc _
      simp only [List.nil_append, amGo, hbc]
      rfl
  | cons c cs' ih =>
      intro bi i bc hbc hcs
      have hstep : (c :: cs') ++ [f] = c :: (cs' ++ [f]) := rfl
      rw [hstep]
      simp only [amGo]
      by_cases h : simGeSimB e bc c
      · rw [if_pos h, ih bi (i + 1) bc hbc
          (fun x hx => hcs x (List.mem_cons_of_mem _ hx))]
        simp only [List.length_cons]
        congr 1
        omega
      · rw [if_neg h, ih i (i + 1) c (hcs c (List.mem_cons_self _ _))
          (fun x hx => hcs x (List.mem_cons_of_mem _ hx))]
        simp only [List.length_cons]
        congr 1
        omega

theorem assign_after_append (t : ℚ) (e : List ℚ) (cents : List (List ℚ × ℕ))
    (hSe : 0 < normSq e) (ht : t ≤ 1)
    (hcs : ∀ p ∈ cents, 0 < normSq p.1)
    (hfresh : ∀ p ∈ cents, simGeB t e p.1 = false) :
    (assign t ⟨cents ++ [(e, 1)]⟩ e).1 = cents.length ∧
    (assign t ⟨cents ++ [(e, 1)]⟩ e).2.cents.length = cents.length + 1 := by
  cases cents with
  | nil =>
      simp only [assign, List.nil_append, amGo]
      rw [if_pos (by simp [simGeB_self t e hSe ht])]
      simp
  | cons c₀ rest =>
      simp only [assign, List.cons_append]
      have hmap : ((rest ++ [(e, 1)] : List (List ℚ × ℕ))).map (fun p => p.1) =
          rest.map (fun p => p.1) ++ [e] := by simp
      have hbc : simGeSimB e c₀.1 e = false :=
        simGeSimB_lt_self t e c₀.1 hSe (hcs c₀ (List.mem_cons_self _ _)) ht
          (hfresh c₀ (List.mem_cons_self _ _))
      have hall : ∀ c ∈ rest.map (fun p => p.1), simGeSimB e c e = false := by
        intro c hc
        obtain ⟨p, hp, hpe⟩ := List.mem_map.mp hc
        rw [← hpe]
        exact simGeSimB_lt_self t e p.1 hSe (hcs p (List.mem_cons_of_mem _ hp)) ht
          (hfresh p (List.mem_cons_of_mem _ hp))
      rw [hmap, amGo_last e e (rest.map (fun p => p.1)) 0 1 c₀.1 hbc hall]
      rw [if_pos (by simp [simGeB_self t e hSe ht])]
      constructor
      · simp only [List.length_map, List.length_cons]
        omega
      · simp only [List.length_set, List.length_cons, List.length_append,
          List.length_nil]

/-- C4: (modelled from the spec) on an empty state, `assign` creates
centroid 0 with count 1 and returns id 0.  And whenever an assignment
created a fresh centroid (every existing nonzero centroid is below the
threshold `t ≤ 1` for the nonzero embedding `e`), feeding the exact same
embedding again returns that same fresh centroid's id and creates no new
cluster. -/
theorem clusterer_assign_stable :
    (∀ (t : ℚ) (e : List ℚ), assign t ⟨[]⟩ e = (0, ⟨[(e, 1)]⟩)) ∧
    (∀ (t : ℚ) (st : CState) (e : List ℚ), 0 < normSq e → t ≤ 1 →
      (∀ p ∈ st.cents, 0 < normSq p.1) →
      (∀ p ∈ st.cents, simGeB t e p.1 = false) →
      (assign t st e).1 = st.cents.length ∧
      (assign t st e).2.cents = st.cents ++ [(e, 1)] ∧
      (assign t (assign t st e).2 e).1 = st.cents.length ∧
      (assign t (assign t st e).2 e).2.cents.length = st.cents.length + 1) := by
  constructor
  · intro t e; rfl
  · intro t st e hSe ht hcs hfresh
    obtain ⟨cents⟩ := st
    have hfirst : assign t ⟨cents⟩ e = (cents.length, ⟨cents ++ [(e, 1)]⟩) := by
      cases cents with
      | nil => rfl
      | cons c₀ rest =>
          simp only [assign]
          have hmem := amGo_mem e (rest.map (fun p => p.1)) 0 1 c₀.1
          have hng : simGeB t e (amGo e 0 c₀.1 1 (rest.map (fun p => p.1))).2 = false := by
            rcases hmem with hm | hm
            · rw [hm]; exact hfresh c₀ (List.mem_cons_self _ _)
            · obtain ⟨p, hp, hpe⟩ := List.mem_map.mp hm
              rw [← hpe]; exact hfresh p (List.mem_cons_of_mem _ hp)
          rw [if_neg (by simp [hng])]
    rw [hfirst]
    have hsecond := assign_after_append t e cents hSe ht hcs hfresh
    exact ⟨rfl, rfl, hsecond.1, hsecond.2⟩

/-- C4 witness: threshold 0, one prior centroid `[-1, 0]`, embedding
`[1, 0]`: the first assignment creates cluster 1, the repeat returns 1 and
the centroid count stays 2. -/
theorem clusterer_assign_stable_witness :
    assign 0 ⟨[]⟩ [1, 0] = (0, ⟨[([1, 0], 1)]⟩) ∧
    (0 < normSq [(1 : ℚ), 0] ∧ (0 : ℚ) ≤ 1 ∧
      (∀ p ∈ ([([-1, 0], 1)] : List (List ℚ × ℕ)), 0 < normSq p.1) ∧
      (∀ p ∈ ([([-1, 0], 1)] : List (List ℚ × ℕ)), simGeB 0 [1, 0] p.1 = false)) ∧
    (assign 0 ⟨[([-1, 0], 1)]⟩ [1, 0]).1 = 1 ∧
    (assign 0 (assign 0 ⟨[([-1, 0], 1)]⟩ [1, 0]).2 [1, 0]).1 = 1 ∧
    (assign 0 (assign 0 ⟨[([-1, 0], 1)]⟩ [1, 0]).2 [1, 0]).2.cents.length = 2 := by
  have hSe : 0 < normSq [(1 : ℚ), 0] := by norm_num [normSq, dotQ]
  have ht : (0 : ℚ) ≤ 1 := by norm_num
  have hcs : ∀ p ∈ ([([-1, 0], 1)] : List (List ℚ × ℕ)), 0 < normSq p.1 := by
    intro p hp
    simp only [List.mem_singleton] at hp
    subst hp
    norm_num [normSq, dotQ]
  have hfresh : ∀ p ∈ ([([-1, 0], 1)] : List (List ℚ × ℕ)),
      simGeB 0 [1, 0] p.1 = false := by
    intro p hp
    simp only [List.mem_singleton] at hp
    subst hp
    simp only [simGeB, dotQ, normSq]
    norm_num
  have h2 := clusterer_assign_stable.2 0 ⟨[([-1, 0], 1)]⟩ [1, 0] hSe ht hcs hfresh
  exact ⟨clusterer_assign_stable.1 0 [1, 0], ⟨hSe, ht, hcs, hfresh⟩, h2.1, h2.2.2.1,
    h2.2.2.2⟩
